import Mathlib

/-!
Verification of the fastnote note store against its specification.

The definitions below are a shallow embedding of the Python sources
(src/main.py and src/utils.py).  A note collection is the Python dict
`Dict[str, dict]`, modelled as an association list that keeps the dict
iteration order.  The backing file notes.json is modelled by an explicit
state: missing, unparseable, or a well-formed document holding a
collection (Python json round-trips a dict of string-keyed records, so
the document is identified with the collection it encodes).
-/

/-- A note record, the four free-form text fields built by edit_post in
src/main.py: the dict with keys url, title, quote, note. -/
structure Note where
  url : String
  title : String
  quote : String
  note : String
deriving DecidableEq, Repr

/-- A note collection: the dict from note ID (string) to record, in
iteration order. -/
abbrev Collection := List (String × Note)

/-- State of the backing file notes.json. -/
inductive FileState where
  | missing : FileState
  | malformed : FileState
  | wellFormed : Collection → FileState
deriving DecidableEq, Repr

/-- get_notes (src/main.py lines 44-51): returns the empty dict when the
file does not exist, returns the empty dict when json.load raises
JSONDecodeError, and otherwise returns the parsed contents.  The function
is total: the read path never raises. -/
def get_notes : FileState → Collection
  | .missing => []
  | .malformed => []
  | .wellFormed c => c

/-- The comparison used by put_notes in
sorted(notes.items(), key=lambda item: item[0], reverse=True):
keys descending under lexicographic string comparison. -/
def keyDesc (a b : String × Note) : Prop := b.1 ≤ a.1

instance : DecidableRel keyDesc :=
  fun a b => inferInstanceAs (Decidable (b.1 ≤ a.1))

instance : IsTotal (String × Note) keyDesc :=
  ⟨fun a b => le_total b.1 a.1⟩

instance : IsTrans (String × Note) keyDesc :=
  ⟨fun _ _ _ h1 h2 => le_trans h2 h1⟩

/-- The sort performed by put_notes: a stable sort of the items by key
descending (Python sorted is stable, as is insertion sort). -/
def sortDesc (notes : Collection) : Collection :=
  List.insertionSort keyDesc notes

/-- The state put_notes acts on: the process-wide NOTES dict and the
backing file. -/
structure StoreState where
  notes : Collection
  file : FileState
deriving DecidableEq, Repr

/-- put_notes (src/main.py lines 53-59): sorts the items by key
descending, stores the result in the global NOTES, and rewrites the whole
file with it. -/
def put_notes (notes : Collection) : StoreState :=
  let sorted_notes := sortDesc notes
  ⟨sorted_notes, .wellFormed sorted_notes⟩

/-- Python dict assignment notes[k] = v: replace the value in place when
the key is present, append the pair otherwise. -/
def dictInsert (notes : Collection) (k : String) (v : Note) : Collection :=
  if notes.any (fun p => p.1 == k) then
    notes.map (fun p => if p.1 == k then (k, v) else p)
  else notes ++ [(k, v)]

/-- edit_post (src/main.py lines 232-248), after the auth check.  The
form field id has type int with default 0, so an absent or empty field
arrives as 0; note_id = id if id else int(time.time()) picks the caller
id when it is non-zero (Python truthiness) and the current Unix time
otherwise.  The record is stored at str(note_id) and put_notes is
called.  Returns the effective id and the resulting store state. -/
def edit_post (notes : Collection) (id : Int) (now : Int)
    (url title quote note : String) : Int × StoreState :=
  let new_note : Note := ⟨url, title, quote, note⟩
  let note_id := if id ≠ 0 then id else now
  (note_id, put_notes (dictInsert notes (toString note_id) new_note))

/-- delete_note (src/main.py lines 250-260), after the auth check:
when the id is a key of NOTES, the entry is removed (del notes[id]) and
put_notes is called; otherwise nothing happens. -/
def delete_note (s : StoreState) (id : String) : StoreState :=
  if s.notes.any (fun p => p.1 == id) then
    put_notes (s.notes.filter (fun p => p.1 != id))
  else s

/-- C1: for every collection, save (put_notes) followed by load
(get_notes) reproduces the same set of (ID, record) pairs, and the loaded
result is sorted by ID descending under lexicographic string
comparison of the keys. -/
theorem c1_save_load_roundtrip (notes : Collection) :
    (∀ p : String × Note,
        p ∈ get_notes (put_notes notes).file ↔ p ∈ notes) ∧
    List.Sorted keyDesc (get_notes (put_notes notes).file) := by
  constructor
  · intro p
    exact (List.perm_insertionSort keyDesc notes).mem_iff
  · exact List.sorted_insertionSort keyDesc notes

/-- C2: load (get_notes) returns the empty collection when the backing
file is missing and when its contents fail to parse, and returns the
parsed contents of every existing well-formed file; being a total Lean
function, the model never raises on the read path. -/
theorem c2_load_error_handling :
    get_notes .missing = [] ∧ get_notes .malformed = [] ∧
    ∀ c : Collection, get_notes (.wellFormed c) = c :=
  ⟨rfl, rfl, fun _ => rfl⟩

theorem dictInsert_mem_self (l : Collection) (k : String) (v : Note) :
    (k, v) ∈ dictInsert l k v := by
  unfold dictInsert
  split
  · rename_i h
    rw [List.any_eq_true] at h
    obtain ⟨p, hp, hpk⟩ := h
    rw [List.mem_map]
    exact ⟨p, hp, by simp [hpk]⟩
  · exact List.mem_append_right _ (List.mem_singleton.mpr rfl)

theorem dictInsert_key_unique (l : Collection) (k : String) (v v' : Note)
    (h : (k, v') ∈ dictInsert l k v) : v' = v := by
  unfold dictInsert at h
  split at h
  · rw [List.mem_map] at h
    obtain ⟨p, _, hp⟩ := h
    by_cases hk : p.1 = k
    · simp only [hk, beq_self_eq_true, if_true, Prod.mk.injEq] at hp
      exact hp.2.symm
    · rw [if_neg (by simpa using hk)] at hp
      exact absurd (by rw [hp]) hk
  · rename_i hany
    rw [List.mem_append] at h
    rcases h with h | h
    · exact absurd (List.any_eq_true.mpr ⟨(k, v'), h, by simp⟩) hany
    · simpa using List.mem_singleton.mp h

theorem dictInsert_mem_ne (l : Collection) (k k' : String) (v v' : Note)
    (hne : k' ≠ k) : (k', v') ∈ dictInsert l k v ↔ (k', v') ∈ l := by
  unfold dictInsert
  split
  · rw [List.mem_map]
    constructor
    · rintro ⟨p, hp, hpe⟩
      by_cases hk : p.1 = k
      · simp only [hk, beq_self_eq_true, if_true, Prod.mk.injEq] at hpe
        exact absurd hpe.1.symm hne
      · rw [if_neg (by simpa using hk)] at hpe
        rwa [hpe] at hp
    · intro hmem
      refine ⟨(k', v'), hmem, ?_⟩
      rw [if_neg (by simpa using hne)]
  · rw [List.mem_append]
    constructor
    · rintro (h | h)
      · exact h
      · exact absurd (List.mem_singleton.mp h) (by simp [hne, Prod.ext_iff])
    · exact Or.inl

/-- C3: upsert (edit_post) uses the current Unix time as the effective ID
when the supplied ID is absent, empty or zero (all of which the int form
field turns into 0) and the caller ID unchanged otherwise; it stores the
record at the effective ID, overwriting any entry at that ID, leaves all
other IDs untouched, and saves the collection to the file. -/
theorem c3_upsert (notes : Collection) (id now : Int)
    (url title quote note : String) :
    (edit_post notes id now url title quote note).1
        = (if id ≠ 0 then id else now) ∧
    (toString (edit_post notes id now url title quote note).1,
        Note.mk url title quote note)
        ∈ (edit_post notes id now url title quote note).2.notes ∧
    (∀ v : Note,
        (toString (edit_post notes id now url title quote note).1, v)
          ∈ (edit_post notes id now url title quote note).2.notes →
        v = Note.mk url title quote note) ∧
    (∀ (k : String) (v : Note),
        k ≠ toString (edit_post notes id now url title quote note).1 →
        ((k, v) ∈ (edit_post notes id now url title quote note).2.notes ↔
          (k, v) ∈ notes)) ∧
    (edit_post notes id now url title quote note).2.file
        = .wellFormed (edit_post notes id now url title quote note).2.notes := by
  set eid := if id ≠ 0 then id else now with heid
  have hperm :
      (edit_post notes id now url title quote note).2.notes.Perm
        (dictInsert notes (toString eid) (Note.mk url title quote note)) :=
    List.perm_insertionSort keyDesc _
  refine ⟨rfl, ?_, ?_, ?_, rfl⟩
  · exact hperm.mem_iff.mpr (dictInsert_mem_self _ _ _)
  · intro v hv
    exact dictInsert_key_unique _ _ _ _ (hperm.mem_iff.mp hv)
  · intro k v hk
    rw [hperm.mem_iff]
    exact dictInsert_mem_ne _ _ _ _ _ hk

/-- C3 witness: with supplied ID 0 and current time 99, the effective ID
is 99; the record lands at key "99", it is the only record there, and the
entry at key "5" is untouched. -/
theorem c3_upsert_witness :
    (edit_post [("5", ⟨"a", "b", "c", "d"⟩)] 0 99 "u" "t" "q" "n").1 = 99 ∧
    ("99", (⟨"u", "t", "q", "n"⟩ : Note))
        ∈ (edit_post [("5", ⟨"a", "b", "c", "d"⟩)] 0 99 "u" "t" "q" "n").2.notes ∧
    (("5", (⟨"a", "b", "c", "d"⟩ : Note))
        ∈ (edit_post [("5", ⟨"a", "b", "c", "d"⟩)] 0 99 "u" "t" "q" "n").2.notes ↔
      ("5", (⟨"a", "b", "c", "d"⟩ : Note)) ∈ [("5", (⟨"a", "b", "c", "d"⟩ : Note))]) := by
  refine ⟨?_, ?_, ?_⟩
  · rw [(c3_upsert [("5", ⟨"a", "b", "c", "d"⟩)] 0 99 "u" "t" "q" "n").1]
    decide
  · have h := (c3_upsert [("5", ⟨"a", "b", "c", "d"⟩)] 0 99 "u" "t" "q" "n").2.1
    simpa using h
  · have h := (c3_upsert [("5", ⟨"a", "b", "c", "d"⟩)] 0 99 "u" "t" "q" "n").2.2.2.1
      "5" ⟨"a", "b", "c", "d"⟩ (by decide)
    simpa using h

/-- C4: delete (delete_note) on a present ID removes exactly that entry,
leaves every other pair untouched, and saves the result to the file;
delete on an absent ID changes nothing, neither the collection nor the
backing file. -/
theorem c4_delete (s : StoreState) (id : String) :
    (id ∈ s.notes.map Prod.fst →
        (∀ v : Note, (id, v) ∉ (delete_note s id).notes) ∧
        (∀ (k : String) (v : Note), k ≠ id →
            ((k, v) ∈ (delete_note s id).notes ↔ (k, v) ∈ s.notes)) ∧
        (delete_note s id).file = .wellFormed (delete_note s id).notes) ∧
    (id ∉ s.notes.map Prod.fst → delete_note s id = s) := by
  by_cases hpresent : s.notes.any (fun p => p.1 == id) = true
  · have hmem : id ∈ s.notes.map Prod.fst := by
      rw [List.any_eq_true] at hpresent
      obtain ⟨p, hp, hpe⟩ := hpresent
      rw [List.mem_map]
      exact ⟨p, hp, by simpa using hpe⟩
    have hdel : delete_note s id
        = put_notes (s.notes.filter (fun p => p.1 != id)) := by
      unfold delete_note
      rw [if_pos hpresent]
    have hperm : (delete_note s id).notes.Perm
        (s.notes.filter (fun p => p.1 != id)) := by
      rw [hdel]
      exact List.perm_insertionSort keyDesc _
    refine ⟨fun _ => ⟨?_, ?_, ?_⟩, fun habs => absurd hmem habs⟩
    · intro v hv
      have := List.of_mem_filter (hperm.mem_iff.mp hv)
      simp at this
    · intro k v hk
      rw [hperm.mem_iff, List.mem_filter]
      simp [hk]
    · rw [hdel]
      rfl
  · have habs : id ∉ s.notes.map Prod.fst := by
      intro hmem
      apply hpresent
      rw [List.mem_map] at hmem
      obtain ⟨p, hp, hpe⟩ := hmem
      exact List.any_eq_true.mpr ⟨p, hp, by simpa using hpe⟩
    have hdel : delete_note s id = s := by
      unfold delete_note
      rw [if_neg hpresent]
    exact ⟨fun hmem => absurd hmem habs, fun _ => hdel⟩

/-- C4 witness: deleting key "10" from a store holding only key "10"
leaves no entry at "10"; deleting the absent key "30" returns the store
unchanged, backing file included. -/
theorem c4_delete_witness :
    (∀ v : Note,
        ("10", v) ∉ (delete_note ⟨[("10", ⟨"", "", "", ""⟩)], .missing⟩ "10").notes) ∧
    delete_note ⟨[("10", ⟨"", "", "", ""⟩)], .missing⟩ "30"
        = ⟨[("10", ⟨"", "", "", ""⟩)], .missing⟩ := by
  constructor
  · exact ((c4_delete ⟨[("10", ⟨"", "", "", ""⟩)], .missing⟩ "10").1 (by decide)).1
  · exact (c4_delete ⟨[("10", ⟨"", "", "", ""⟩)], .missing⟩ "30").2 (by decide)

/-- The haystack built by search (src/main.py line 130): the Python
f-string joins the four fields with single spaces. -/
def noteContent (n : Note) : String :=
  n.url ++ " " ++ n.title ++ " " ++ n.quote ++ " " ++ n.note

/-- Python substring containment (needle in haystack), on char lists. -/
def strContains (hay ned : List Char) : Bool :=
  (List.range (hay.length + 1)).any (fun i => (hay.drop i).take ned.length == ned)

/-- Python str.lower, modelled on the character list (ASCII case folding
via Char.toLower; the note IDs and queries of interest are ASCII). -/
def lowerChars (s : String) : List Char := s.data.map Char.toLower

/-- The match predicate of search: the lowercased haystack contains the
lowercased query (q_lower in content). -/
def matchesQuery (q : String) (p : String × Note) : Bool :=
  strContains (lowerChars (noteContent p.2)) (lowerChars q)

/-- search (src/main.py lines 121-146): with a non-empty query (Python
string truthiness), keeps the entries whose lowercased haystack contains
the lowercased query; with an empty query, keeps everything.  The route
then renders only the first limit = 16 entries of the result,
dict(list(results.items())[:limit]). -/
def searchFilter (notes : Collection) (q : String) : Collection :=
  if q ≠ "" then notes.filter (matchesQuery q)
  else notes

def search (notes : Collection) (q : String) : Collection :=
  (searchFilter notes q).take 16

/-- The spec reading of the search haystack for claim C6: plain
concatenation url + title + quote + note with no separator. -/
def specConcat (n : Note) : String := n.url ++ n.title ++ n.quote ++ n.note

/-- C5 counterexample: on a 17-entry collection the route truncates the
rendered result to limit = 16 entries, so search with an empty query does
not return the full collection. -/
theorem c5_counterexample :
    search ((List.range 17).map (fun i => (toString i, Note.mk "" "" "" ""))) ""
      ≠ (List.range 17).map (fun i => (toString i, Note.mk "" "" "" "")) := by
  decide

/-- C5 amended: with an empty query, search keeps the whole collection
unfiltered in stored order but renders only its first 16 entries; the
result is the full collection exactly on collections of at most 16
entries. -/
theorem c5_search_empty (notes : Collection) :
    search notes "" = notes.take 16 ∧
    (notes.length ≤ 16 → search notes "" = notes) := by
  have hbase : search notes "" = notes.take 16 := by
    unfold search searchFilter
    simp
  refine ⟨hbase, fun h => ?_⟩
  rw [hbase]
  exact List.take_of_length_le h

/-- C5 witness: on a one-entry collection the empty query returns the
collection itself. -/
theorem c5_search_empty_witness :
    search [("1", Note.mk "" "" "" "")] "" = [("1", Note.mk "" "" "" "")] :=
  (c5_search_empty [("1", Note.mk "" "" "" "")]).2 (by decide)

/-- C6 counterexample: for the note with url "ab" and title "cd", the
query "bc" is a substring of the plain concatenation "abcd", spanning the
url/title field boundary, yet the code searches the space-joined haystack
"ab cd  " and returns nothing. -/
theorem c6_counterexample :
    strContains (lowerChars (specConcat (Note.mk "ab" "cd" "" "")))
        (lowerChars "bc") = true ∧
    search [("1", Note.mk "ab" "cd" "" "")] "bc" = [] := by
  constructor
  · decide
  · decide

/-- C6 amended: for a non-empty query, search keeps, in collection order,
exactly the entries whose case-insensitive space-joined haystack
(url, title, quote, note separated by single spaces) contains the
case-insensitive query as a substring, and renders only the first 16 of
them; when at most 16 entries match, the result is exactly the matching
entries. -/
theorem c6_search_query (notes : Collection) (q : String) (hq : q ≠ "") :
    search notes q = (notes.filter (matchesQuery q)).take 16 ∧
    List.Sublist (search notes q) notes ∧
    (∀ p : String × Note, p ∈ search notes q →
        p ∈ notes ∧ matchesQuery q p = true) ∧
    ((notes.filter (matchesQuery q)).length ≤ 16 →
      ∀ p : String × Note,
        p ∈ search notes q ↔ p ∈ notes ∧ matchesQuery q p = true) := by
  have hbase : search notes q = (notes.filter (matchesQuery q)).take 16 := by
    unfold search searchFilter
    rw [if_pos hq]
  refine ⟨hbase, ?_, ?_, ?_⟩
  · rw [hbase]
    exact (List.take_sublist _ _).trans (List.filter_sublist _)
  · intro p hp
    rw [hbase] at hp
    exact List.mem_filter.mp (List.mem_of_mem_take hp)
  · intro hlen p
    rw [hbase, List.take_of_length_le hlen, List.mem_filter]

/-- C6 witness: the query "B C" matches the note whose lowercased
haystack is "ab cd  " (case-insensitively, across the url/title
boundary) and not the other entry. -/
theorem c6_search_query_witness :
    search [("1", Note.mk "ab" "cd" "" ""), ("2", Note.mk "x" "y" "z" "w")] "B C"
      = [("1", Note.mk "ab" "cd" "" "")] := by
  have h := (c6_search_query
      [("1", Note.mk "ab" "cd" "" ""), ("2", Note.mk "x" "y" "z" "w")]
      "B C" (by decide)).1
  rw [h]
  decide

/-- The pagination of index (src/main.py lines 69-91), with the local
constant limit = 8 abstracted as a parameter: page = p if p > 0 else 1,
offset = limit * (page - 1), pages = (count + limit - 1) // limit, and
the slice is notes_items[offset : offset + limit]. -/
def paginate {α : Type} (items : List α) (p : Int) (limit : Nat) :
    List α × Nat :=
  let page : Nat := if 0 < p then p.toNat else 1
  let offset := limit * (page - 1)
  let pages := (items.length + limit - 1) / limit
  ((items.drop offset).take limit, pages)

/-- index (src/main.py lines 69-91) paginates the in-memory collection
with page size 8. -/
def index (notes : Collection) (p : Int) : Collection × Nat :=
  paginate notes p 8

theorem pages_mul_ge (count limit : Nat) (hl : 0 < limit) :
    count ≤ (count + limit - 1) / limit * limit := by
  set a := count + limit - 1 with ha
  have h := Nat.lt_div_mul_add (a := a) hl
  set t := a / limit * limit with ht
  omega

/-- C7: pagination clamps page numbers below 1 to 1 (so page 0 behaves
exactly as page 1), the page count is the least number of size-limit
pages covering all items (the ceiling of count / page size), an
out-of-range page yields the empty slice rather than an error, and page
999 at size 8 on a 3-item collection yields the empty slice with 1 total
page. -/
theorem c7_paginate :
    (∀ (α : Type) (items : List α) (p : Int) (limit : Nat), 0 < limit →
      (p ≤ 0 → paginate items p limit = paginate items 1 limit) ∧
      items.length ≤ (paginate items p limit).2 * limit ∧
      (∀ m : Nat, items.length ≤ m * limit → (paginate items p limit).2 ≤ m) ∧
      ((paginate items p limit).2 < (if 0 < p then p.toNat else 1) →
        (paginate items p limit).1 = [])) ∧
    (∀ (α : Type) (items : List α), paginate items 0 8 = paginate items 1 8) ∧
    index [("3", Note.mk "" "" "" ""), ("2", Note.mk "" "" "" ""),
        ("1", Note.mk "" "" "" "")] 999 = ([], 1) := by
  have main : ∀ (α : Type) (items : List α) (p : Int) (limit : Nat), 0 < limit →
      (p ≤ 0 → paginate items p limit = paginate items 1 limit) ∧
      items.length ≤ (paginate items p limit).2 * limit ∧
      (∀ m : Nat, items.length ≤ m * limit → (paginate items p limit).2 ≤ m) ∧
      ((paginate items p limit).2 < (if 0 < p then p.toNat else 1) →
        (paginate items p limit).1 = []) := by
    intro α items p limit hl
    refine ⟨?_, ?_, ?_, ?_⟩
    · intro hp
      unfold paginate
      rw [if_neg (by omega), if_pos (by omega)]
      norm_num
    · exact pages_mul_ge items.length limit hl
    · intro m hm
      show (items.length + limit - 1) / limit ≤ m
      rw [Nat.div_le_iff_le_mul_add_pred hl, Nat.mul_comm limit m]
      set t := m * limit with ht
      omega
    · intro hlt
      have hb := pages_mul_ge items.length limit hl
      set page := if 0 < p then p.toNat else 1 with hpage
      have hlt2 : (items.length + limit - 1) / limit < page := hlt
      have hlen : items.length ≤ limit * (page - 1) := by
        have h2 : (items.length + limit - 1) / limit * limit
            ≤ (page - 1) * limit :=
          Nat.mul_le_mul (by omega) (le_refl limit)
        calc items.length
            ≤ (items.length + limit - 1) / limit * limit := hb
          _ ≤ (page - 1) * limit := h2
          _ = limit * (page - 1) := Nat.mul_comm _ _
      show ((items.drop (limit * (page - 1))).take limit) = []
      rw [List.drop_eq_nil_of_le hlen, List.take_nil]
  refine ⟨main, ?_, ?_⟩
  · intro α items
    exact (main α items 0 8 (by decide)).1 (by decide)
  · decide

/-- C7 witness: page -5 at size 2 on a 3-item list behaves as page 1,
the 3 items fit in pages * 2 slots with pages at most 2, and page 7 is
out of range and yields the empty slice. -/
theorem c7_paginate_witness :
    paginate ([0, 1, 2] : List Nat) (-5) 2 = paginate ([0, 1, 2] : List Nat) 1 2 ∧
    ([0, 1, 2] : List Nat).length ≤ (paginate ([0, 1, 2] : List Nat) (-5) 2).2 * 2 ∧
    (paginate ([0, 1, 2] : List Nat) (-5) 2).2 ≤ 2 ∧
    (paginate ([0, 1, 2] : List Nat) 7 2).1 = [] := by
  obtain ⟨h1, h2, h3, h4⟩ := c7_paginate.1 Nat [0, 1, 2] (-5) 2 (by decide)
  obtain ⟨g1, g2, g3, g4⟩ := c7_paginate.1 Nat [0, 1, 2] 7 2 (by decide)
  exact ⟨h1 (by decide), h2, h3 2 (by decide), g4 (by decide)⟩

/-- rss (src/main.py lines 169-182): the feed renders the first
limit = 16 entries of the collection, and last_id is the first key
list(notes.keys())[0] when the collection is non-empty, and the current
Unix time int(time.time()) otherwise. -/
def rss (notes : Collection) (now : Int) : Collection × (String ⊕ Int) :=
  (notes.take 16,
    match notes with
    | [] => Sum.inr now
    | (k, _) :: _ => Sum.inl k)

/-- C10: the feed body is the first 16 entries of the collection, hence
at most 16 of them; on a non-empty collection last_id is the first key,
the newest note ID given the descending stored order; on an empty
collection last_id falls back to the current Unix time, which lives in
the integer summand and thus is not any note ID (of which there are
none). -/
theorem c10_rss (notes : Collection) (now : Int) :
    (rss notes now).1 = notes.take 16 ∧
    (rss notes now).1.length ≤ 16 ∧
    (∀ (k : String) (v : Note) (rest : Collection),
        notes = (k, v) :: rest → (rss notes now).2 = Sum.inl k) ∧
    (notes = [] → (rss notes now).2 = Sum.inr now ∧
        ∀ p : String × Note, p ∈ notes → Sum.inl p.1 ≠ (rss notes now).2) := by
  refine ⟨rfl, ?_, ?_, ?_⟩
  · show (notes.take 16).length ≤ 16
    rw [List.length_take]
    exact min_le_left _ _
  · rintro k v rest rfl
    rfl
  · rintro rfl
    exact ⟨rfl, fun p hp => absurd hp (List.not_mem_nil p)⟩

/-- C10 witness: on a one-entry collection last_id is its key "30"; on
the empty collection last_id is the clock value 77. -/
theorem c10_rss_witness :
    (rss [("30", Note.mk "" "" "" "")] 77).2 = Sum.inl "30" ∧
    (rss [] 77).2 = Sum.inr 77 := by
  refine ⟨?_, ?_⟩
  · exact (c10_rss [("30", Note.mk "" "" "" "")] 77).2.2.1 "30"
      (Note.mk "" "" "" "") [] rfl
  · exact ((c10_rss [] 77).2.2.2 rfl).1

/-- note (src/main.py lines 93-119): none models the 404 when the id is
not a key; otherwise the record is rendered together with
prev_id = ids[index + 1] if index + 1 < len(ids) else None and
next_id = ids[index - 1] if index > 0 else None, where ids is the key
list and index the position of id in it (the except ValueError arm is
unreachable because membership was already checked). -/
def note (notes : Collection) (id : String) :
    Option (Note × Option String × Option String) :=
  (notes.lookup id).map (fun note_data =>
    (note_data,
     if (notes.map Prod.fst).indexOf id + 1 < (notes.map Prod.fst).length
       then (notes.map Prod.fst)[(notes.map Prod.fst).indexOf id + 1]? else none,
     if 0 < (notes.map Prod.fst).indexOf id
       then (notes.map Prod.fst)[(notes.map Prod.fst).indexOf id - 1]? else none))

theorem lookup_split (l₁ l₂ : Collection) (id : String) (v : Note)
    (h : id ∉ l₁.map Prod.fst) :
    (l₁ ++ (id, v) :: l₂).lookup id = some v := by
  induction l₁ with
  | nil => simp [List.lookup]
  | cons a l ih =>
    obtain ⟨k, b⟩ := a
    rw [List.map_cons, List.mem_cons, not_or] at h
    obtain ⟨h1, h2⟩ := h
    have h1b : (id == k) = false := beq_eq_false_iff_ne.mpr h1
    rw [List.cons_append]
    simp only [List.lookup, h1b]
    exact ih h2

theorem indexOf_split (l₁ l₂ : List String) (id : String) (h : id ∉ l₁) :
    (l₁ ++ id :: l₂).indexOf id = l₁.length := by
  induction l₁ with
  | nil => simp
  | cons a l ih =>
    rw [List.mem_cons, not_or] at h
    obtain ⟨h1, h2⟩ := h
    rw [List.cons_append, List.indexOf_cons_ne _ (fun he => h1 he.symm),
      ih h2, List.length_cons]

/-- C8: for every ID present in the collection, the note page links
previous to the ID immediately later in iteration order (the next-older
entry) and next to the ID immediately earlier (the next-newer entry),
each absent at the respective end; on the descending collection
{"30": A, "20": B, "10": C} the neighbours of "20" are previous "10" and
next "30". -/
theorem c8_neighbors :
    (∀ (l₁ l₂ : Collection) (id : String) (v : Note),
        id ∉ l₁.map Prod.fst →
        note (l₁ ++ (id, v) :: l₂) id
          = some (v, (l₂.map Prod.fst).head?, (l₁.map Prod.fst).getLast?)) ∧
    note [("30", Note.mk "a" "" "" ""), ("20", Note.mk "b" "" "" ""),
        ("10", Note.mk "c" "" "" "")] "20"
      = some (Note.mk "b" "" "" "", some "10", some "30") := by
  constructor
  · intro l₁ l₂ id v h
    have hlook := lookup_split l₁ l₂ id v h
    have hids : (l₁ ++ (id, v) :: l₂).map Prod.fst
        = l₁.map Prod.fst ++ id :: l₂.map Prod.fst := by
      rw [List.map_append, List.map_cons]
    unfold note
    rw [hlook, Option.map_some', hids, indexOf_split _ _ _ h]
    have hprev :
        (if (l₁.map Prod.fst).length + 1
            < (l₁.map Prod.fst ++ id :: l₂.map Prod.fst).length
          then (l₁.map Prod.fst ++ id :: l₂.map Prod.fst)[(l₁.map Prod.fst).length + 1]?
          else none) = (l₂.map Prod.fst).head? := by
      cases hB : l₂.map Prod.fst with
      | nil =>
        rw [if_neg (by simp)]
        rfl
      | cons x xs =>
        rw [if_pos (by simp), List.getElem?_append_right (by omega)]
        have h1 : (l₁.map Prod.fst).length + 1 - (l₁.map Prod.fst).length = 1 := by
          omega
        rw [h1]
        simp
    have hnext :
        (if 0 < (l₁.map Prod.fst).length
          then (l₁.map Prod.fst ++ id :: l₂.map Prod.fst)[(l₁.map Prod.fst).length - 1]?
          else none) = (l₁.map Prod.fst).getLast? := by
      cases hA : l₁.map Prod.fst with
      | nil => rfl
      | cons a as =>
        rw [if_pos (by simp), List.getElem?_append, if_pos (by simp),
          ← List.getLast?_eq_getElem?]
    rw [hprev, hnext]
  · decide

/-- C8 witness: the general neighbour theorem applied at the concrete
descending three-entry collection around key "20". -/
theorem c8_neighbors_witness :
    note [("30", Note.mk "a" "" "" ""), ("20", Note.mk "b" "" "" ""),
        ("10", Note.mk "c" "" "" "")] "20"
      = some (Note.mk "b" "" "" "", some "10", some "30") := by
  have h := c8_neighbors.1 [("30", Note.mk "a" "" "" "")]
      [("10", Note.mk "c" "" "" "")] "20" (Note.mk "b" "" "" "") (by decide)
  simpa using h

/-- The unit table of time_ago (src/utils.py lines 37-45), in dict
insertion order: largest unit first. -/
def tokens : List (Nat × String) :=
  [(31536000, "year"), (2592000, "month"), (604800, "week"),
   (86400, "day"), (3600, "hour"), (60, "minute"), (1, "second")]

/-- Python round applied to the quotient diff / unit: round half to
even.  The source divides in double precision; for every quotient of
magnitude below 2 to the 52nd (all realistic clock values) the double
division rounds exactly as the rational quotient modelled here. -/
def pyRound (diff unit : Nat) : Nat :=
  if 2 * (diff % unit) < unit then diff / unit
  else if unit < 2 * (diff % unit) then diff / unit + 1
  else if (diff / unit) % 2 = 0 then diff / unit else diff / unit + 1

/-- The phrase returned from the loop body of time_ago:
f-string count, a space, the unit name, and s when count > 1. -/
def formatToken (count : Nat) (text : String) : String :=
  toString count ++ " " ++ text ++ (if 1 < count then "s" else "")

/-- The for-loop of time_ago (src/utils.py lines 47-52): walk the unit
table, skip units larger than diff, and return the rounded count of the
first unit not exceeding diff; the fallthrough value is "just now". -/
def timeAgoLoop : List (Nat × String) → Nat → String
  | [], _ => "just now"
  | (unit, text) :: rest, diff =>
    if diff < unit then timeAgoLoop rest diff
    else formatToken (pyRound diff unit) text

/-- The elapsed-seconds computation of time_ago (src/utils.py lines
32-35): diff = now - timestamp, floored at 1. -/
def elapsedFloor (now timestamp : Int) : Nat :=
  (if now - timestamp < 1 then 1 else now - timestamp).toNat

/-- time_ago (src/utils.py lines 31-52), with the clock passed
explicitly. -/
def time_ago (now timestamp : Int) : String :=
  timeAgoLoop tokens (elapsedFloor now timestamp)

theorem elapsedFloor_pos (now ts : Int) : 1 ≤ elapsedFloor now ts := by
  unfold elapsedFloor
  split <;> omega

theorem pyRound_ge_one (diff unit : Nat) (hu : 0 < unit)
    (hd : unit ≤ diff) : 1 ≤ pyRound diff unit := by
  have h1 : 1 ≤ diff / unit := (Nat.one_le_div_iff hu).mpr hd
  unfold pyRound
  split_ifs <;> omega

theorem pyRound_nearest (diff unit : Nat) (hu : 0 < unit) :
    2 * (pyRound diff unit * unit) ≤ 2 * diff + unit ∧
    2 * diff ≤ 2 * (pyRound diff unit * unit) + unit := by
  have hd : diff / unit * unit + diff % unit = diff := Nat.div_add_mod' diff unit
  have hlt : diff % unit < unit := Nat.mod_lt diff hu
  unfold pyRound
  split_ifs with h1 h2 h3 <;> (try rw [Nat.add_mul, Nat.one_mul]) <;> omega

theorem timeAgoLoop_spec (diff : Nat) (h1 : 1 ≤ diff) :
    ∃ (unit : Nat) (text : String),
      (unit, text) ∈ tokens ∧ unit ≤ diff ∧ 0 < unit ∧
      (∀ u t, (u, t) ∈ tokens → u ≤ diff → u ≤ unit) ∧
      timeAgoLoop tokens diff = formatToken (pyRound diff unit) text := by
  by_cases c1 : diff < 60
  · refine ⟨1, "second", by simp [tokens], h1, by omega, ?_, ?_⟩
    · intro u t hu hd
      simp [tokens] at hu
      rcases hu with ⟨rfl, rfl⟩|⟨rfl, rfl⟩|⟨rfl, rfl⟩|⟨rfl, rfl⟩|⟨rfl, rfl⟩|⟨rfl, rfl⟩|⟨rfl, rfl⟩ <;>
        omega
    · simp only [tokens, timeAgoLoop]
      rw [if_pos (by omega), if_pos (by omega), if_pos (by omega),
        if_pos (by omega), if_pos (by omega), if_pos (by omega),
        if_neg (by omega)]
  · by_cases c2 : diff < 3600
    · refine ⟨60, "minute", by simp [tokens], by omega, by omega, ?_, ?_⟩
      · intro u t hu hd
        simp [tokens] at hu
        rcases hu with ⟨rfl, rfl⟩|⟨rfl, rfl⟩|⟨rfl, rfl⟩|⟨rfl, rfl⟩|⟨rfl, rfl⟩|⟨rfl, rfl⟩|⟨rfl, rfl⟩ <;>
          omega
      · simp only [tokens, timeAgoLoop]
        rw [if_pos (by omega), if_pos (by omega), if_pos (by omega),
          if_pos (by omega), if_pos (by omega), if_neg (by omega)]
    · by_cases c3 : diff < 86400
      · refine ⟨3600, "hour", by simp [tokens], by omega, by omega, ?_, ?_⟩
        · intro u t hu hd
          simp [tokens] at hu
          rcases hu with ⟨rfl, rfl⟩|⟨rfl, rfl⟩|⟨rfl, rfl⟩|⟨rfl, rfl⟩|⟨rfl, rfl⟩|⟨rfl, rfl⟩|⟨rfl, rfl⟩ <;>
            omega
        · simp only [tokens, timeAgoLoop]
          rw [if_pos (by omega), if_pos (by omega), if_pos (by omega),
            if_pos (by omega), if_neg (by omega)]
      · by_cases c4 : diff < 604800
        · refine ⟨86400, "day", by simp [tokens], by omega, by omega, ?_, ?_⟩
          · intro u t hu hd
            simp [tokens] at hu
            rcases hu with ⟨rfl, rfl⟩|⟨rfl, rfl⟩|⟨rfl, rfl⟩|⟨rfl, rfl⟩|⟨rfl, rfl⟩|⟨rfl, rfl⟩|⟨rfl, rfl⟩ <;>
              omega
          · simp only [tokens, timeAgoLoop]
            rw [if_pos (by omega), if_pos (by omega), if_pos (by omega),
              if_neg (by omega)]
        · by_cases c5 : diff < 2592000
          · refine ⟨604800, "week", by simp [tokens], by omega, by omega, ?_, ?_⟩
            · intro u t hu hd
              simp [tokens] at hu
              rcases hu with ⟨rfl, rfl⟩|⟨rfl, rfl⟩|⟨rfl, rfl⟩|⟨rfl, rfl⟩|⟨rfl, rfl⟩|⟨rfl, rfl⟩|⟨rfl, rfl⟩ <;>
                omega
            · simp only [tokens, timeAgoLoop]
              rw [if_pos (by omega), if_pos (by omega), if_neg (by omega)]
          · by_cases c6 : diff < 31536000
            · refine ⟨2592000, "month", by simp [tokens], by omega, by omega, ?_, ?_⟩
              · intro u t hu hd
                simp [tokens] at hu
                rcases hu with ⟨rfl, rfl⟩|⟨rfl, rfl⟩|⟨rfl, rfl⟩|⟨rfl, rfl⟩|⟨rfl, rfl⟩|⟨rfl, rfl⟩|⟨rfl, rfl⟩ <;>
                  omega
              · simp only [tokens, timeAgoLoop]
                rw [if_pos (by omega), if_neg (by omega)]
            · refine ⟨31536000, "year", by simp [tokens], by omega, by omega, ?_, ?_⟩
              · intro u t hu hd
                simp [tokens] at hu
                rcases hu with ⟨rfl, rfl⟩|⟨rfl, rfl⟩|⟨rfl, rfl⟩|⟨rfl, rfl⟩|⟨rfl, rfl⟩|⟨rfl, rfl⟩|⟨rfl, rfl⟩ <;>
                  omega
              · simp only [tokens, timeAgoLoop]
                rw [if_neg (by omega)]

theorem formatToken_ne (c : Nat) (t : String) (hc : 1 ≤ c)
    (ht : t = "year" ∨ t = "month" ∨ t = "week" ∨ t = "day" ∨ t = "hour"
      ∨ t = "minute" ∨ t = "second") :
    formatToken c t ≠ "just now" := by
  intro he
  by_cases h2 : 1 < c
  · unfold formatToken at he
    rw [if_pos h2] at he
    have hdata := congrArg String.data he
    rw [String.data_append] at hdata
    rw [show ("s".data) = (['s'] : List Char) from rfl] at hdata
    have hlast := congrArg List.getLast? hdata
    rw [List.getLast?_concat] at hlast
    exact absurd hlast (by decide)
  · have hc1 : c = 1 := by omega
    subst hc1
    rcases ht with rfl|rfl|rfl|rfl|rfl|rfl|rfl <;> exact absurd he (by decide)

/-- C9: time_ago floors the elapsed seconds at 1, selects the largest
unit of the table not exceeding the elapsed time, and renders the
elapsed time as a nearest whole count of that unit (at distance at most
half a unit), with the count at least 1 and an s appended exactly when
the count exceeds 1; the "just now" fallback is never returned; 90
elapsed seconds give "2 minutes" (half rounds up to the even count) and
30 give "30 seconds". -/
theorem c9_time_ago :
    (∀ now ts : Int,
      ∃ (unit : Nat) (text : String),
        (unit, text) ∈ tokens ∧
        unit ≤ elapsedFloor now ts ∧
        (∀ u t, (u, t) ∈ tokens → u ≤ elapsedFloor now ts → u ≤ unit) ∧
        time_ago now ts
          = formatToken (pyRound (elapsedFloor now ts) unit) text ∧
        1 ≤ pyRound (elapsedFloor now ts) unit ∧
        2 * (pyRound (elapsedFloor now ts) unit * unit)
            ≤ 2 * elapsedFloor now ts + unit ∧
        2 * elapsedFloor now ts
            ≤ 2 * (pyRound (elapsedFloor now ts) unit * unit) + unit) ∧
    (∀ now ts : Int, time_ago now ts ≠ "just now") ∧
    time_ago 90 0 = "2 minutes" ∧
    time_ago 30 0 = "30 seconds" := by
  have main : ∀ now ts : Int,
      ∃ (unit : Nat) (text : String),
        (unit, text) ∈ tokens ∧
        unit ≤ elapsedFloor now ts ∧
        (∀ u t, (u, t) ∈ tokens → u ≤ elapsedFloor now ts → u ≤ unit) ∧
        time_ago now ts
          = formatToken (pyRound (elapsedFloor now ts) unit) text ∧
        1 ≤ pyRound (elapsedFloor now ts) unit ∧
        2 * (pyRound (elapsedFloor now ts) unit * unit)
            ≤ 2 * elapsedFloor now ts + unit ∧
        2 * elapsedFloor now ts
            ≤ 2 * (pyRound (elapsedFloor now ts) unit * unit) + unit := by
    intro now ts
    obtain ⟨unit, text, hmem, hle, hpos, hmax, heval⟩ :=
      timeAgoLoop_spec (elapsedFloor now ts) (elapsedFloor_pos now ts)
    have hn := pyRound_nearest (elapsedFloor now ts) unit hpos
    exact ⟨unit, text, hmem, hle, hmax, heval,
      pyRound_ge_one _ _ hpos hle, hn.1, hn.2⟩
  refine ⟨main, ?_, by decide, by decide⟩
  intro now ts
  obtain ⟨unit, text, hmem, hle, hmax, heval, hc1, _, _⟩ := main now ts
  rw [heval]
  have ht : text = "year" ∨ text = "month" ∨ text = "week" ∨ text = "day"
      ∨ text = "hour" ∨ text = "minute" ∨ text = "second" := by
    simp [tokens] at hmem
    tauto
  exact formatToken_ne _ _ hc1 ht

/-- C9 witness: the general statement applied at clock 90, timestamp 0:
the elapsed 90 seconds render as "2 minutes" and in particular not as
"just now". -/
theorem c9_time_ago_witness :
    time_ago 90 0 = "2 minutes" ∧ time_ago 90 0 ≠ "just now" :=
  ⟨c9_time_ago.2.2.1, c9_time_ago.2.1 90 0⟩
